import Mathlib

/-!
Verification of the local PDF indexing and retrieval engine of the
LiveKit-Agent repository (packages/rag_core/src/rag_core/pdf_indexer.py),
shallowly embedded in Lean 4.

Modelling conventions:
* Python strings are modelled as `List Char` (sequences of code points)
  where character-level algorithms matter (the chunker), and as `String`
  where the text is opaque payload (metadata, prompts).
* Python ints are `Nat`/`Int`.  The expression `int(chunk_size * 0.8)` is
  modelled exactly as `(4 * chunk_size) / 5` (natural division), which
  agrees with IEEE-754 double evaluation for every realistic chunk size.
* Floating point similarity scores are modelled as `Int`: the code only
  compares and sorts scores, never does arithmetic on them.
* External capabilities (sentence-transformers embedding model,
  cross-encoder, language detector, generation client, pypdf extraction)
  are parameters: functions passed to the embedded operations, following
  the capability contracts of the specification.
* The FAISS flat inner-product index is a third-party component; its
  exact search is modelled per the specification's Vector Index contract:
  exact top-k by inner product, score descending, ties by insertion
  index, results padded with index -1 when fewer than k vectors exist
  (the score attached to padding entries is never observed by callers,
  which drop negative indices before reading the score).
* A `while` loop whose progress depends on the inputs (the chunker) is
  embedded with explicit fuel; fuel exhaustion (`none`) models
  non-termination of the Python loop.
-/

/-- The whitespace characters recognised by Python `str.split()` /
`str.strip()`, restricted to the ASCII range used by this code path. -/
def pyIsSpace (c : Char) : Bool :=
  c = ' ' || c = '\t' || c = '\n' || c = '\r' || c = '\x0b' || c = '\x0c'

/-- Helper for `pyWords`: accumulates the current word (reversed). -/
def pyWordsAux : List Char → List Char → List (List Char)
  | [], acc => if acc.isEmpty then [] else [acc.reverse]
  | c :: rest, acc =>
      if pyIsSpace c then
        if acc.isEmpty then pyWordsAux rest [] else acc.reverse :: pyWordsAux rest []
      else
        pyWordsAux rest (c :: acc)

/-- Python `text.split()`: maximal runs of non-whitespace characters. -/
def pyWords (l : List Char) : List (List Char) := pyWordsAux l []

/-- Python `" ".join(text.split())`: collapse all whitespace runs to
single spaces and drop leading/trailing whitespace. -/
def pyNormalize (l : List Char) : List Char := List.intercalate [' '] (pyWords l)

/-- Python `s.strip()` on the normalised text (only whitespace stripped). -/
def pyStrip (l : List Char) : List Char :=
  ((l.dropWhile pyIsSpace).reverse.dropWhile pyIsSpace).reverse

/-- Python slice `text[s:c]` (clamping semantics included). -/
def pySlice (l : List Char) (s c : Nat) : List Char := (l.drop s).take (c - s)

/-- Does `sep` occur in `txt` starting at position `pos`? -/
def matchesAt (txt sep : List Char) (pos : Nat) : Bool :=
  (txt.drop pos).take sep.length = sep

/-- Scan positions `p, p-1, ..., lo` for the highest match of `sep`. -/
def rfindGo (txt sep : List Char) (lo : Nat) : Nat → Option Nat
  | 0 => if lo = 0 && matchesAt txt sep 0 then some 0 else none
  | p + 1 =>
      if lo ≤ p + 1 && matchesAt txt sep (p + 1) then some (p + 1)
      else rfindGo txt sep lo p

/-- Python `text.rfind(sep, lo, hi)`: highest position `q` with
`lo ≤ q` and `q + sep.length ≤ min hi (length txt)` at which `sep`
occurs, or `none` (`-1` in Python). -/
def pyRfind (txt sep : List Char) (lo hi : Nat) : Option Nat :=
  if lo + sep.length ≤ min hi txt.length then
    rfindGo txt sep lo (min hi txt.length - sep.length)
  else none

/-- The separator priority list of `chunk_text`:
`[". ", "; ", ": ", "\n", " "]`. -/
def sepCandidates : List (List Char) :=
  [['.', ' '], [';', ' '], [':', ' '], ['\n'], [' ']]

/-- The `for sep in [...]` loop of `chunk_text`: first separator (in
priority order) found by `rfind` in `[lo, hi)` yields `pos + len(sep)`. -/
def findSepCut (txt : List Char) (lo hi : Nat) : List (List Char) → Option Nat
  | [] => none
  | sep :: rest =>
      match pyRfind txt sep lo hi with
      | some p => some (p + sep.length)
      | none => findSepCut txt lo hi rest

/-- The cut position one iteration of the `chunk_text` loop chooses for a
window starting at `start`: `end = min(start + chunk_size, n)`, then the
separator search over `[start + int(chunk_size*0.8), end)`, defaulting
to `end`. -/
def cutOf (txt : List Char) (cs start : Nat) : Nat :=
  (findSepCut txt (start + (4 * cs) / 5) (min (start + cs) txt.length) sepCandidates).getD
    (min (start + cs) txt.length)

/-- The `while start < n` loop of `chunk_text`, with fuel.  Returns the
appended (not yet filtered) chunk list; `none` models a run of the
Python loop that does not terminate within `fuel` iterations. -/
def chunkLoop (txt : List Char) (cs ov : Nat) : Nat → Nat → Option (List (List Char))
  | 0, _ => none
  | fuel + 1, start =>
      if start < txt.length then
        let cut := cutOf txt cs start
        let piece := pyStrip (pySlice txt start cut)
        if txt.length ≤ cut then some [piece]
        else
          match chunkLoop txt cs ov fuel (cut - ov) with
          | none => none
          | some rest => some (piece :: rest)
      else some []

/-- Model of `chunk_text(text, chunk_size, overlap)` from pdf_indexer.py.
Returns `none` when the Python loop would not terminate. The fuel
`n + 1` is sufficient whenever the loop makes strict forward progress
(see the termination theorem). -/
def chunk_text (t : List Char) (cs ov : Nat) : Option (List (List Char)) :=
  let txt := pyNormalize t
  if txt.isEmpty then some []
  else
    match chunkLoop txt cs ov (txt.length + 1) 0 with
    | none => none
    | some pieces => some (pieces.filter (fun c => !c.isEmpty))

/-! ## Stable descending sort (CPython `sorted(..., reverse=True)`)

CPython's sort is stable; with `reverse=True` and a single numeric key it
produces the unique permutation that is non-increasing on the key and
keeps elements with equal keys in their original relative order.  That
behaviour is modelled by a stable insertion sort. -/

/-- Insert `x` before the first element whose key is `≤ key x` (so `x`
goes before later-coming ties, preserving stability). -/
def insertDescBy {α : Type} (key : α → Int) (x : α) : List α → List α
  | [] => [x]
  | y :: ys => if key y ≤ key x then x :: y :: ys else y :: insertDescBy key x ys

/-- Stable sort, key descending: model of `sorted(l, key=..., reverse=True)`. -/
def sortDescBy {α : Type} (key : α → Int) : List α → List α
  | [] => []
  | x :: xs => insertDescBy key x (sortDescBy key xs)

/-! ## Data model -/

/-- One record of `meta.jsonl` (and the payload of a `DocChunk`). -/
structure Meta where
  text : String
  source : String
  page : Nat
  lang : String
deriving DecidableEq, Repr, Inhabited

/-- A `DocChunk` produced by extraction. -/
structure DocChunk where
  text : String
  source : String
  page : Nat
  lang : String
deriving DecidableEq, Repr, Inhabited

/-- A scored retrieval result (`Hit` dataclass). -/
structure Hit where
  score : Int
  text : String
  source : String
  page : Nat
  lang : String
deriving DecidableEq, Repr, Inhabited

def chunkToMeta (c : DocChunk) : Meta := ⟨c.text, c.source, c.page, c.lang⟩

/-! ## FAISS flat index model and `PDFKnowledgeBase.search` -/

/-- Inner product of two embedding vectors. -/
def dotIP (a b : List Int) : Int := (List.zipWith (· * ·) a b).sum

/-- Score every stored vector against the query, tagging each with its
insertion index (starting at `i`). -/
def scoredFrom (q : List Int) : Int → List (List Int) → List (Int × Int)
  | _, [] => []
  | i, v :: vs => (dotIP v q, i) :: scoredFrom q (i + 1) vs

/-- Model of `faiss.IndexFlatIP.search` for one query, modelled per the
specification's Vector Index contract (third-party component): exact
scores against all stored vectors, top-k by score descending with ties
by insertion index, padded to length `k` with index `-1` entries when
fewer than `k` vectors are stored.  The score paired with a padding
index is never observed by the caller, which skips negative indices. -/
def faissSearch (stored : List (List Int)) (q : List Int) (k : Nat) : List (Int × Int) :=
  (sortDescBy Prod.fst (scoredFrom q 0 stored)).take k
    ++ List.replicate (k - stored.length) (0, -1)

/-- The `(score, idx)` pairs `PDFKnowledgeBase.search` keeps: the zip of
`D[0]` and `I[0]` with `idx < 0 or idx >= len(self._metas)` skipped. -/
def kb_searchPairs (stored : List (List Int)) (metas : List Meta)
    (q : List Int) (k : Nat) : List (Int × Int) :=
  (faissSearch stored q k).filter (fun p => 0 ≤ p.2 && p.2 < (metas.length : Int))

def mkHit (score : Int) (m : Meta) : Hit := ⟨score, m.text, m.source, m.page, m.lang⟩

/-- The hit list built by `PDFKnowledgeBase.search` (post-load core).
The `getD` default is unreachable: every kept index is within bounds. -/
def kb_search (stored : List (List Int)) (metas : List Meta)
    (q : List Int) (k : Nat) : List Hit :=
  (kb_searchPairs stored metas q k).map
    (fun p => mkHit p.1 (metas.getD p.2.toNat default))

/-! ## In-memory knowledge-base state -/

/-- The parsed content of `config.json`. -/
structure ConfigJson where
  embedding_model : String
  chunk_size : Nat
  overlap : Nat
deriving DecidableEq, Repr, Inhabited

/-- The mutable fields of a `PDFKnowledgeBase`: `_index`, `_model`
(identified by the model string it was constructed from), `_metas`,
`_cfg` (`none` models the empty dict). -/
structure KBMem where
  index : Option (List (List Int))
  model : Option String
  metas : List Meta
  cfg : Option ConfigJson
deriving DecidableEq, Repr, Inhabited

/-- Model of `PDFKnowledgeBase.search` including the not-loaded guard: encodes the
query with the embedding capability `embed` applied to the model
identifier the in-memory model was constructed from. -/
def kb_search_full (embed : String → String → List Int) (mem : KBMem)
    (q : String) (k : Nat) : Except String (List Hit) :=
  match mem.index, mem.model with
  | some stored, some modelId => .ok (kb_search stored mem.metas (embed modelId q) k)
  | _, _ => .error "Index not loaded. Call ensure_index() first."

/-! ## `rerank`, `build_prompt`, `answer`

The cross-encoder is the capability `cross : query → passage → score`
(`CrossEncoder.predict` maps the `(question, hit.text)` pairs to scores
elementwise).  Possession of the capability models its availability. -/

/-- Model of `PDFKnowledgeBase.rerank`: score each pair, stable-sort descending by
the new score, truncate to `top_m`, rebuild Hits carrying the new score. -/
def rerank (cross : String → String → Int) (question : String)
    (hits : List Hit) (top_m : Nat) : List Hit :=
  let pairs := hits.map (fun h => (question, h.text))
  let scores := pairs.map (fun p => cross p.1 p.2)
  let rescored := sortDescBy Prod.fst (scores.zip hits)
  (rescored.take top_m).map (fun p => { p.2 with score := p.1 })

/-- The fixed instruction block of `build_prompt` (with the target
language interpolated). -/
def promptInstructions (target_lang : String) : String :=
  "Use only the provided context to answer. " ++
  "If the answer is not present, state that it does not appear in the documents.\n" ++
  "Cite sources in the format (file p.X). " ++
  "Be concise and respond in the indicated language.\n" ++
  "Answer language: " ++ target_lang ++ ".\n"

/-- Model of `PDFKnowledgeBase.build_prompt`: context blocks in hit order, target
language from `answer_lang`, else the detector, else "en". -/
def build_prompt (detect : String → Option String) (question : String)
    (hits : List Hit) (answer_lang : Option String) : String :=
  let blocks := hits.map (fun h =>
    "[" ++ h.source ++ " p." ++ toString h.page ++ "]\n" ++ h.text)
  let context := String.intercalate "\n\n" blocks
  let target := answer_lang.getD ((detect question).getD "en")
  promptInstructions target ++ "\nQuestion: " ++ question ++
    "\n\nContext:\n" ++ context ++ "\n\nAnswer:"

/-- Model of `PDFKnowledgeBase.answer`.  `gen` is the configured Generation Client
(`call_ollama`/`call_openai`, selection by environment abstracted away;
both strip their response before returning). -/
def answer (embed : String → String → List Int) (cross : String → String → Int)
    (detect : String → Option String) (gen : String → String) (mem : KBMem)
    (question : String) (k : Nat) (use_rerank : Bool) (final_m : Nat)
    (answer_lang : Option String) : Except String (String × List Hit) :=
  match kb_search_full embed mem question k with
  | .error e => .error e
  | .ok hits0 =>
      let hits :=
        if use_rerank && !hits0.isEmpty then
          rerank cross question hits0 (min final_m hits0.length)
        else hits0
      let prompt := build_prompt detect question hits answer_lang
      .ok (gen prompt, hits)

/-! ## Index builder, manifest, staleness, `ensure_index`

File-system objects are modelled by their observable content:
a PDF file found by the directory glob is the triple of its resolved
absolute path, byte size and `st_mtime_ns` (two distinct directory
entries may resolve to the same path, e.g. through a symlink, in which
case the list carries the same triple twice); the index directory is the
presence of the four bundle artifacts plus their parsed contents.  JSON
values read back through `dict.get` are `Option`-typed where the code
tolerates a missing key. -/

/-- The `PDFIndexer` configuration (`embed_model`, `chunk_size`, `overlap`). -/
structure IndexerCfg where
  embed_model : String
  chunk_size : Nat
  overlap : Nat
deriving DecidableEq, Repr, Inhabited

/-- One directory entry matched by the `*.pdf` glob, as observed by
`Path.resolve()`, `Path.stat()` and `Path.is_file()`.  The glob can
match entries that are not regular files (for instance a subdirectory
named like a PDF); `isFile` records the `is_file()` test that
`PDFIndexer.build` applies and `_needs_rebuild` does not. -/
structure PdfStat where
  path : String
  size : Nat
  mtime_ns : Nat
  isFile : Bool
deriving DecidableEq, Repr, Inhabited

/-- One entry of the manifest's `pdfs` list as read back from JSON
(`entry["path"]` is required by the code, the others read via `get`). -/
structure ManifestEntry where
  path : String
  size : Option Nat
  mtime_ns : Option Nat
deriving DecidableEq, Repr, Inhabited

/-- Parsed `manifest.json` content (all lookups in the code go through
`dict.get`, hence `Option` fields; a missing `pdfs` key is the default
empty list). -/
structure StoredManifest where
  created_at : Option Nat
  embedding_model : Option String
  chunk_size : Option Nat
  overlap : Option Nat
  pdfs : List ManifestEntry
deriving DecidableEq, Repr, Inhabited

/-- Model of `PDFIndexer._build_manifest` (`now` is `time.time()`). -/
def buildManifest (cfg : IndexerCfg) (now : Nat) (pdf_paths : List PdfStat) : StoredManifest :=
  { created_at := some now
    embedding_model := some cfg.embed_model
    chunk_size := some cfg.chunk_size
    overlap := some cfg.overlap
    pdfs := pdf_paths.map (fun p => ⟨p.path, some p.size, some p.mtime_ns⟩) }

/-- The on-disk state of the index directory: which bundle artifacts
exist, the parse result of `manifest.json` (`none` models an unparsable
file), and the contents of the other three artifacts. -/
structure DiskState where
  hasFaiss : Bool
  hasMeta : Bool
  hasConfig : Bool
  hasManifest : Bool
  manifest : Option StoredManifest
  vectors : List (List Int)
  metas : List Meta
  config : ConfigJson
deriving DecidableEq, Repr, Inhabited

/-- Lookup in the dict `{entry["path"]: entry for entry in pdfs}`:
with duplicate paths the later entry overwrites, so the last match wins. -/
def storedLookup (entries : List ManifestEntry) (p : String) : Option ManifestEntry :=
  (entries.filter (fun e => e.path == p)).getLast?

/-- Size of the dict `{entry["path"]: entry ...}`: the number of
distinct paths among the manifest entries. -/
def distinctPathCount (entries : List ManifestEntry) : Nat :=
  ((entries.map (fun e => e.path)).dedup).length

/-- Model of `PDFKnowledgeBase._needs_rebuild`, in the code's check
order: required files, manifest parse, the three config keys, the
per-current-PDF fingerprint loop, the dict-size comparison. -/
def needsRebuild (idx : IndexerCfg) (disk : DiskState) (pdf_files : List PdfStat) : Bool :=
  if !(disk.hasFaiss && disk.hasMeta && disk.hasConfig && disk.hasManifest) then true
  else
    match disk.manifest with
    | none => true
    | some m =>
        if m.embedding_model ≠ some idx.embed_model
            ∨ m.chunk_size ≠ some idx.chunk_size
            ∨ m.overlap ≠ some idx.overlap then true
        else if pdf_files.any (fun p =>
            match storedLookup m.pdfs p.path with
            | none => true
            | some e => e.size ≠ some p.size || e.mtime_ns ≠ some p.mtime_ns) then true
        else if distinctPathCount m.pdfs ≠ pdf_files.length then true
        else false

/-- The persisted result of a successful `PDFIndexer.build`. -/
structure BuiltBundle where
  vectors : List (List Int)
  records : List Meta
  config : ConfigJson
  manifest : StoredManifest
deriving DecidableEq, Repr, Inhabited

/-- Model of `PDFIndexer.build`: `extractOf` is the composition of pypdf
extraction and chunking for one input file (`extract_pdf_chunks`),
`embed` the embedding capability (one normalized vector per text, in
order, per the Embedding Provider contract).  The input list is first
narrowed to regular files (`pdf_paths = [p for p in pdf_files if
Path(p).is_file()]`); extraction, the emptiness checks and the manifest
all use the narrowed list.  The two raises are the error cases. -/
def build (cfg : IndexerCfg) (embed : String → List Int)
    (extractOf : PdfStat → List DocChunk) (now : Nat)
    (pdf_files : List PdfStat) : Except String BuiltBundle :=
  let pdf_paths := pdf_files.filter (fun p => p.isFile)
  if pdf_paths.isEmpty then .error "No PDF files provided for indexing."
  else
    let all_chunks := (pdf_paths.map extractOf).flatten
    if all_chunks.isEmpty then .error "No textual content extracted."
    else
      .ok { vectors := all_chunks.map (fun c => embed c.text)
            records := all_chunks.map chunkToMeta
            config := ⟨cfg.embed_model, cfg.chunk_size, cfg.overlap⟩
            manifest := buildManifest cfg now pdf_paths }

/-- Writing the four artifacts of a built bundle to the index directory. -/
def writeBundle (b : BuiltBundle) : DiskState :=
  { hasFaiss := true, hasMeta := true, hasConfig := true, hasManifest := true
    manifest := some b.manifest
    vectors := b.vectors
    metas := b.records
    config := b.config }

/-- Model of `PDFKnowledgeBase._load_index`: early return when both
`_index` and `_model` are already set, otherwise read the bundle and
construct the model from the embedding identifier recorded in
`config.json`. -/
def loadIndexStep (mem : KBMem) (disk : DiskState) : KBMem :=
  if mem.index.isSome && mem.model.isSome then mem
  else
    { index := some disk.vectors
      model := some disk.config.embedding_model
      metas := disk.metas
      cfg := some disk.config }

/-- Model of `PDFKnowledgeBase.close`. -/
def kbClose (_mem : KBMem) : KBMem :=
  { index := none, model := none, metas := [], cfg := none }

/-- Model of `PDFKnowledgeBase.ensure_index`: `pdf_files` is the sorted
glob of the documents directory.  Returns the new memory state, the new
disk state, and whether a rebuild was performed. -/
def ensureIndex (idx : IndexerCfg) (embed : String → List Int)
    (extractOf : PdfStat → List DocChunk) (now : Nat) (mem : KBMem)
    (disk : DiskState) (pdf_files : List PdfStat) :
    Except String (KBMem × DiskState × Bool) :=
  if pdf_files.isEmpty then .error "No PDFs found under the documents directory."
  else if needsRebuild idx disk pdf_files then
    match build idx embed extractOf now pdf_files with
    | .error e => .error e
    | .ok b =>
        let disk' := writeBundle b
        .ok (loadIndexStep mem disk', disk', true)
  else .ok (loadIndexStep mem disk, disk, false)

/-! ## Spec-side definitions

The following definitions follow the wording of specification claims
(not the source); they exist to be compared with the source-derived
definitions above. -/

/-- The rebuild condition exactly as the specification words it: the
count clause compares the number of current PDFs with the number of
entries of the stored manifest's `pdfs` list. -/
def needsRebuildClaimed (idx : IndexerCfg) (disk : DiskState)
    (pdf_files : List PdfStat) : Bool :=
  !(disk.hasFaiss && disk.hasMeta && disk.hasConfig && disk.hasManifest) ||
    match disk.manifest with
    | none => true
    | some m =>
        decide (m.embedding_model ≠ some idx.embed_model) ||
        decide (m.chunk_size ≠ some idx.chunk_size) ||
        decide (m.overlap ≠ some idx.overlap) ||
        decide (m.pdfs.length ≠ pdf_files.length) ||
        pdf_files.any (fun p =>
          match storedLookup m.pdfs p.path with
          | none => true
          | some e => e.size ≠ some p.size || e.mtime_ns ≠ some p.mtime_ns)

/-- The rebuild condition as the amended claim words it: identical to
the claim except that the count clause counts distinct stored paths
(the size of the manifest dict) rather than manifest entries. -/
def needsRebuildAmendedSpec (idx : IndexerCfg) (disk : DiskState)
    (pdf_files : List PdfStat) : Bool :=
  !(disk.hasFaiss && disk.hasMeta && disk.hasConfig && disk.hasManifest) ||
    match disk.manifest with
    | none => true
    | some m =>
        decide (m.embedding_model ≠ some idx.embed_model) ||
        decide (m.chunk_size ≠ some idx.chunk_size) ||
        decide (m.overlap ≠ some idx.overlap) ||
        decide (distinctPathCount m.pdfs ≠ pdf_files.length) ||
        pdf_files.any (fun p =>
          match storedLookup m.pdfs p.path with
          | none => true
          | some e => e.size ≠ some p.size || e.mtime_ns ≠ some p.mtime_ns)

/-- Chunk-coverage reconstruction as the claim words it: some choice of
per-boundary overlap amounts, each at most `ov`, makes the returned
chunks (first chunk whole, each later chunk with its overlap prefix
dropped) concatenate exactly to the normalised text. -/
def reconstructsClaim (ov : Nat) (chunks : List (List Char)) (txt : List Char) : Prop :=
  ∃ os : List Nat, os.length = chunks.length - 1 ∧ (∀ o ∈ os, o ≤ ov) ∧
    match chunks with
    | [] => txt = []
    | c :: rest =>
        c ++ ((os.zip rest).map (fun p => p.2.drop p.1)).flatten = txt

/-- Claim C4 exactly as stated, for a given input. -/
def chunkCoverageClaim (t : List Char) (cs ov : Nat) : Prop :=
  ∀ chunks, chunk_text t cs ov = some chunks →
    (∀ c ∈ chunks, c ≠ []) ∧ reconstructsClaim ov chunks (pyNormalize t)

/-! ## Window chains (support for the amended coverage claim) -/

/-- Executable well-formedness of the sequence of `(start, cut)` windows
visited by the `chunk_text` loop: each window starts where the loop
restarts (`cut - overlap` of its predecessor, `s0` initially), its cut
lies strictly beyond its start, at or beyond the previous cut `pc`
(which is at or beyond this window's start, the overlap region), and
the final cut is exactly `n`. -/
def chainOk (ov n : Nat) : Nat → Nat → List (Nat × Nat) → Bool
  | _, _, [] => false
  | s0, pc, (s, c) :: rest =>
      decide (s = s0) && decide (s ≤ pc) && decide (pc ≤ c) && decide (s < c) &&
        match rest with
        | [] => decide (c = n)
        | _ :: _ => decide (c < n) && chainOk ov n (c - ov) c rest

/-- Concatenation of the raw (unstripped) window contents with each
window's overlap region (the part before the previous cut `pc`)
removed: the formal rendering of "concatenating the chunks' characters
ignoring the overlap regions". -/
def rawJoin (txt : List Char) : Nat → List (Nat × Nat) → List Char
  | _, [] => []
  | pc, (s, c) :: rest => ((pySlice txt s c).drop (pc - s)) ++ rawJoin txt c rest

/-! ## Concrete scenario values used by witnesses and counterexamples -/

def c3cfg : IndexerCfg := ⟨"m", 1, 0⟩

/-- Embedding capability for the small scenarios. -/
def c3embed : String → List Int := fun _ => [1]

/-- Extraction capability: every PDF yields one chunk. -/
def c3extract : PdfStat → List DocChunk := fun _ => [⟨"t", "a.pdf", 1, "en"⟩]

def c3mem0 : KBMem := ⟨none, none, [], none⟩

def c3disk0 : DiskState := ⟨false, false, false, false, none, [], [], ⟨"", 0, 0⟩⟩

/-- Two directory entries (for instance a file and a symlink to it) that
resolve to the same absolute path, hence identical stat results. -/
def c3pdfsDup : List PdfStat := [⟨"/docs/a.pdf", 1, 1, true⟩, ⟨"/docs/a.pdf", 1, 1, true⟩]

def c3pdfs1 : List PdfStat := [⟨"/docs/a.pdf", 1, 1, true⟩]

/-- A regular PDF next to a subdirectory named like a PDF: the glob
matches both, the `is_file` filter in build keeps only the first. -/
def c3pdfsDir : List PdfStat :=
  [⟨"/docs/a.pdf", 1, 1, true⟩, ⟨"/docs/b.pdf", 2, 2, false⟩]

def c3bundle1 : BuiltBundle :=
  { vectors := [[1]], records := [⟨"t", "a.pdf", 1, "en"⟩]
    config := ⟨"m", 1, 0⟩, manifest := buildManifest c3cfg 0 c3pdfs1 }

def c3disk1 : DiskState := writeBundle c3bundle1

def c3mem1 : KBMem := loadIndexStep c3mem0 c3disk1

/-- A loaded knowledge base whose bundle config records model "B". -/
def c7mem : KBMem := ⟨some [[1]], some "B", [⟨"t", "a.pdf", 1, "en"⟩], some ⟨"B", 1, 0⟩⟩

/-! # Theorems -/

/-! ## Chunker: separator search bounds and termination -/

theorem rfindGo_sound {txt sep : List Char} {lo : Nat} :
    ∀ p q, rfindGo txt sep lo p = some q → lo ≤ q ∧ q ≤ p := by
  intro p
  induction p with
  | zero =>
      intro q h
      unfold rfindGo at h
      split at h
      · cases h
        rename_i hcond
        simp only [Bool.and_eq_true, decide_eq_true_eq] at hcond
        omega
      · cases h
  | succ p ih =>
      intro q h
      unfold rfindGo at h
      split at h
      · cases h
        rename_i hcond
        simp only [Bool.and_eq_true, decide_eq_true_eq] at hcond
        omega
      · have := ih q h
        omega

theorem pyRfind_sound {txt sep : List Char} {lo hi q : Nat} :
    pyRfind txt sep lo hi = some q →
    lo ≤ q ∧ q + sep.length ≤ min hi txt.length := by
  intro h
  unfold pyRfind at h
  split at h
  · rename_i hcond
    have h2 := rfindGo_sound _ q h
    omega
  · cases h

theorem findSepCut_bounds {txt : List Char} {lo hi c : Nat} :
    ∀ seps : List (List Char), (∀ s ∈ seps, s ≠ []) →
    findSepCut txt lo hi seps = some c → lo < c ∧ c ≤ min hi txt.length := by
  intro seps
  induction seps with
  | nil => intro _ h; cases h
  | cons sep rest ih =>
      intro hne h
      unfold findSepCut at h
      cases hfind : pyRfind txt sep lo hi with
      | some p =>
          rw [hfind] at h
          cases h
          have hb := pyRfind_sound hfind
          have hlen : sep ≠ [] := hne sep (by simp)
          have : 0 < sep.length := List.length_pos.mpr hlen
          omega
      | none =>
          rw [hfind] at h
          exact ih (fun s hs => hne s (by simp [hs])) h

theorem sepCandidates_ne_nil : ∀ s ∈ sepCandidates, s ≠ [] := by
  intro s hs
  simp only [sepCandidates, List.mem_cons, List.not_mem_nil, or_false] at hs
  rcases hs with h | h | h | h | h <;> subst h <;> simp

theorem cutOf_le (txt : List Char) (cs start : Nat) :
    cutOf txt cs start ≤ min (start + cs) txt.length := by
  unfold cutOf
  cases hf : findSepCut txt (start + (4 * cs) / 5) (min (start + cs) txt.length)
      sepCandidates with
  | some c =>
      have := findSepCut_bounds sepCandidates sepCandidates_ne_nil hf
      simp only [Option.getD_some]
      omega
  | none => simp [hf]

theorem cutOf_lb (txt : List Char) (cs start : Nat) :
    min (start + (4 * cs) / 5 + 1) (min (start + cs) txt.length) ≤ cutOf txt cs start := by
  unfold cutOf
  cases hf : findSepCut txt (start + (4 * cs) / 5) (min (start + cs) txt.length)
      sepCandidates with
  | some c =>
      have := findSepCut_bounds sepCandidates sepCandidates_ne_nil hf
      simp only [Option.getD_some]
      omega
  | none => simp [hf]

theorem cutOf_gt {txt : List Char} {cs start : Nat}
    (hcs : 1 ≤ cs) (hlt : start < txt.length) : start < cutOf txt cs start := by
  have := cutOf_lb txt cs start
  omega

theorem icc_lt_cs {cs : Nat} (hcs : 1 ≤ cs) : (4 * cs) / 5 < cs := by
  have h5 : 0 < 5 := by omega
  rw [Nat.div_lt_iff_lt_mul h5]
  omega

theorem chunkLoop_isSome (txt : List Char) {cs ov : Nat}
    (hcs : 1 ≤ cs) (hov : ov ≤ (4 * cs) / 5) :
    ∀ fuel start, txt.length - start < fuel →
    (chunkLoop txt cs ov fuel start).isSome = true := by
  intro fuel
  induction fuel with
  | zero => intro start h; omega
  | succ fuel ih =>
      intro start hfuel
      unfold chunkLoop
      by_cases hs : start < txt.length
      · simp only [hs, if_true]
        by_cases hcut : txt.length ≤ cutOf txt cs start
        · simp [hcut]
        · simp only [hcut, if_false]
          have hlow := cutOf_lb txt cs start
          have hicc := icc_lt_cs hcs
          have hrec : txt.length - (cutOf txt cs start - ov) < fuel := by omega
          have := ih (cutOf txt cs start - ov) hrec
          cases hr : chunkLoop txt cs ov fuel (cutOf txt cs start - ov) with
          | none => rw [hr] at this; simp at this
          | some rest => simp
      · simp [hs]

/-- Claim C10: chunk_text terminates for every input text whenever
1 ≤ chunk_size and overlap ≤ int(chunk_size * 0.8): under that
precondition every loop iteration strictly advances the window start
(the chosen cut lies at least int(chunk_size*0.8) + 1 characters past
the start when a separator is found and chunk_size characters past it
otherwise, while overlap is at most int(chunk_size*0.8)), so the fuel
n + 1 always suffices and the embedded loop returns a value. -/
theorem chunk_text_terminates :
    ∀ (t : List Char) (cs ov : Nat), 1 ≤ cs → ov ≤ (4 * cs) / 5 →
    (chunk_text t cs ov).isSome = true := by
  intro t cs ov hcs hov
  unfold chunk_text
  by_cases hempty : (pyNormalize t).isEmpty
  · simp [hempty]
  · simp only [hempty, if_false]
    have h := chunkLoop_isSome (pyNormalize t) hcs hov
      ((pyNormalize t).length + 1) 0 (by omega)
    cases hr : chunkLoop (pyNormalize t) cs ov ((pyNormalize t).length + 1) 0 with
    | none => rw [hr] at h; simp at h
    | some pieces => simp

/-- Witness for C10 at a concrete input. -/
theorem chunk_text_terminates_witness :
    1 ≤ 4 ∧ 0 ≤ (4 * 4) / 5 ∧ (chunk_text ("ab. cd".toList) 4 0).isSome = true :=
  ⟨by decide, by decide, chunk_text_terminates ("ab. cd".toList) 4 0 (by decide) (by decide)⟩

/-! ## Chunker: window chains and coverage -/

theorem cutOf_le_len {txt : List Char} {cs start : Nat} :
    cutOf txt cs start ≤ txt.length :=
  le_trans (cutOf_le txt cs start) (min_le_right _ _)

theorem cutOf_le_cs {txt : List Char} {cs start : Nat} :
    cutOf txt cs start ≤ start + cs :=
  le_trans (cutOf_le txt cs start) (min_le_left _ _)

theorem cutOf_cases (txt : List Char) (cs start : Nat) :
    start + (4 * cs) / 5 + 1 ≤ cutOf txt cs start ∨
    start + cs ≤ cutOf txt cs start ∨ txt.length ≤ cutOf txt cs start := by
  have h := cutOf_lb txt cs start
  rcases Nat.le_total (start + (4 * cs) / 5 + 1) (min (start + cs) txt.length) with h1 | h1
  · rw [min_eq_left h1] at h
    exact Or.inl h
  · rw [min_eq_right h1] at h
    rcases Nat.le_total (start + cs) txt.length with h2 | h2
    · rw [min_eq_left h2] at h
      exact Or.inr (Or.inl h)
    · rw [min_eq_right h2] at h
      exact Or.inr (Or.inr h)

theorem chunkLoop_windows {txt : List Char} {cs ov : Nat}
    (hcs : 1 ≤ cs) (hov : ov ≤ (4 * cs) / 5) :
    ∀ fuel start pc pieces, start < txt.length → pc - ov = start →
    pc ≤ cutOf txt cs start →
    chunkLoop txt cs ov fuel start = some pieces →
    ∃ ws, chainOk ov txt.length start pc ws = true ∧
      pieces = ws.map (fun w => pyStrip (pySlice txt w.1 w.2)) := by
  intro fuel
  induction fuel with
  | zero => intro start pc pieces _ _ _ h; cases h
  | succ fuel ih =>
      intro start pc pieces hstart hpc hpcle h
      unfold chunkLoop at h
      rw [if_pos hstart] at h
      by_cases hcut : txt.length ≤ cutOf txt cs start
      · rw [if_pos hcut] at h
        cases h
        refine ⟨[(start, cutOf txt cs start)], ?_, by simp⟩
        have h1 : cutOf txt cs start ≤ txt.length := cutOf_le_len
        have h2 := cutOf_gt hcs hstart
        simp only [chainOk, Bool.and_eq_true, decide_eq_true_eq, true_and]
        omega
      · rw [if_neg hcut] at h
        cases hr : chunkLoop txt cs ov fuel (cutOf txt cs start - ov) with
        | none => rw [hr] at h; cases h
        | some rest =>
            rw [hr] at h
            cases h
            have hlt : cutOf txt cs start < txt.length := by omega
            have hicc := icc_lt_cs hcs
            have hnext : cutOf txt cs start ≤ cutOf txt cs (cutOf txt cs start - ov) := by
              rcases cutOf_cases txt cs (cutOf txt cs start - ov) with hc | hc | hc <;>
                omega
            obtain ⟨ws', hchain', hp'⟩ := ih (cutOf txt cs start - ov) (cutOf txt cs start)
              rest (by omega) rfl hnext hr
            cases ws' with
            | nil => rw [show chainOk ov txt.length (cutOf txt cs start - ov)
                (cutOf txt cs start) [] = false from rfl] at hchain'; cases hchain'
            | cons w ws'' =>
                refine ⟨(start, cutOf txt cs start) :: w :: ws'', ?_, by simp [hp']⟩
                have hstep : chainOk ov txt.length start pc
                    ((start, cutOf txt cs start) :: w :: ws'')
                    = (decide (start = start) && decide (start ≤ pc) &&
                        decide (pc ≤ cutOf txt cs start) &&
                        decide (start < cutOf txt cs start) &&
                        (decide (cutOf txt cs start < txt.length) &&
                          chainOk ov txt.length (cutOf txt cs start - ov)
                            (cutOf txt cs start) (w :: ws''))) := rfl
                rw [hstep, hchain']
                have h2 := cutOf_gt hcs hstart
                simp only [Bool.and_true, Bool.and_eq_true, decide_eq_true_eq,
                  decide_eq_true_eq, true_and]
                omega

theorem chainOk_rawJoin {txt : List Char} {ov : Nat} :
    ∀ (ws : List (Nat × Nat)) (s0 pc : Nat),
    chainOk ov txt.length s0 pc ws = true →
    rawJoin txt pc ws = (txt.drop pc).take (txt.length - pc) := by
  intro ws
  induction ws with
  | nil => intro s0 pc h; cases h
  | cons sc rest ih =>
      intro s0 pc h
      obtain ⟨s, c⟩ := sc
      cases rest with
      | nil =>
          simp only [chainOk, Bool.and_eq_true, decide_eq_true_eq] at h
          obtain ⟨⟨⟨⟨hs0, hspc⟩, hpcc⟩, hsc⟩, hcn⟩ := h
          show (pySlice txt s c).drop (pc - s) ++ rawJoin txt c [] =
            (txt.drop pc).take (txt.length - pc)
          show (pySlice txt s c).drop (pc - s) ++ [] = (txt.drop pc).take (txt.length - pc)
          rw [List.append_nil]
          unfold pySlice
          rw [List.drop_take, List.drop_drop]
          have e1 : s + (pc - s) = pc := by omega
          have e2 : c - s - (pc - s) = c - pc := by omega
          rw [e1, e2, hcn]
      | cons w rest' =>
          have hstep : chainOk ov txt.length s0 pc ((s, c) :: w :: rest')
              = (decide (s = s0) && decide (s ≤ pc) && decide (pc ≤ c) &&
                  decide (s < c) && (decide (c < txt.length) &&
                    chainOk ov txt.length (c - ov) c (w :: rest'))) := rfl
          rw [hstep] at h
          simp only [Bool.and_eq_true, decide_eq_true_eq] at h
          obtain ⟨⟨⟨⟨hs0, hspc⟩, hpcc⟩, hsc⟩, hcn, hchain⟩ := h
          have hIH := ih (c - ov) c hchain
          show (pySlice txt s c).drop (pc - s) ++ rawJoin txt c (w :: rest') =
            (txt.drop pc).take (txt.length - pc)
          rw [hIH]
          unfold pySlice
          rw [List.drop_take, List.drop_drop]
          have e1 : s + (pc - s) = pc := by omega
          have e2 : c - s - (pc - s) = c - pc := by omega
          rw [e1, e2]
          have e3 : txt.length - pc = (c - pc) + (txt.length - c) := by omega
          rw [e3, List.take_add]
          congr 1
          rw [List.drop_drop]
          have e5 : pc + (c - pc) = c := by omega
          rw [e5]

/-- Claim C4, corrected (counterexample): as stated the claim is false.
On input "ab. cd" with chunk_size 4 and overlap 0 the code returns the
chunks "ab." and "cd": the trailing space of the ". " separator is
removed by the per-chunk strip() and, the overlap being 0, belongs to no
other chunk, so no choice of overlap amounts reconstructs the
whitespace-normalised text "ab. cd" — the space has been dropped. -/
theorem chunk_coverage_counterexample :
    ¬ chunkCoverageClaim ("ab. cd".toList) 4 0 := by
  intro h
  have h2 := h [['a', 'b', '.'], ['c', 'd']] (by decide)
  obtain ⟨-, os, hlen, hle, heq⟩ := h2
  simp only [List.length_cons, List.length_nil] at hlen
  obtain ⟨o, rfl⟩ := List.length_eq_one.mp hlen
  have ho : o = 0 := Nat.le_zero.mp (hle o (by simp))
  subst ho
  exact absurd heq (by decide)

/-- Claim C4 (amended): provided 1 ≤ chunk_size and
overlap ≤ int(chunk_size * 0.8) (the regime in which the loop advances
and terminates), every returned chunk is non-empty, an empty normalised
text yields no chunks, and otherwise the chunks are exactly the
non-empty space-stripped contents of a chain of windows of the
whitespace-normalised text that starts at 0, steps from each cut to
cut - overlap, and ends at the text's length; concatenating the raw
(unstripped) window contents with the overlap regions removed
reconstructs the whitespace-normalised text exactly, so the claim's
reconstruction property holds up to the space characters removed by the
per-chunk strip at window boundaries, and no non-space character is
dropped. -/
theorem chunk_coverage_amended :
    ∀ (t : List Char) (cs ov : Nat) (chunks : List (List Char)),
    1 ≤ cs → ov ≤ (4 * cs) / 5 → chunk_text t cs ov = some chunks →
    (∀ c ∈ chunks, c ≠ []) ∧
    (pyNormalize t = [] → chunks = []) ∧
    (pyNormalize t ≠ [] → ∃ ws : List (Nat × Nat),
        chainOk ov (pyNormalize t).length 0 0 ws = true ∧
        rawJoin (pyNormalize t) 0 ws = pyNormalize t ∧
        chunks = (ws.map (fun w => pyStrip (pySlice (pyNormalize t) w.1 w.2))).filter
          (fun c => !c.isEmpty)) := by
  intro t cs ov chunks hcs hov h
  unfold chunk_text at h
  by_cases hemp : (pyNormalize t).isEmpty
  · rw [if_pos hemp] at h
    cases h
    refine ⟨by simp, fun _ => rfl, fun hne => absurd (List.isEmpty_iff.mp hemp) hne⟩
  · rw [if_neg hemp] at h
    cases hr : chunkLoop (pyNormalize t) cs ov ((pyNormalize t).length + 1) 0 with
    | none => rw [hr] at h; cases h
    | some pieces =>
        rw [hr] at h
        cases h
        have hlen0 : 0 < (pyNormalize t).length := by
          cases h' : pyNormalize t with
          | nil => rw [h'] at hemp; exact absurd rfl hemp
          | cons a l => simp [h']
        refine ⟨?_, ?_, ?_⟩
        · intro c hc
          rcases List.mem_filter.mp hc with ⟨-, h2⟩
          intro hceq
          rw [hceq] at h2
          cases h2
        · intro h0
          rw [h0] at hlen0
          cases hlen0
        · intro _hne
          obtain ⟨ws, hchain, hpieces⟩ := chunkLoop_windows hcs hov
            ((pyNormalize t).length + 1) 0 0 pieces hlen0 (by omega)
            (Nat.zero_le _) hr
          refine ⟨ws, hchain, ?_, by rw [hpieces]⟩
          rw [chainOk_rawJoin ws 0 0 hchain]
          simp

/-- Witness for the amended C4 theorem at a concrete input. -/
theorem chunk_coverage_amended_witness :
    (∀ c ∈ [['a', 'b', '.'], ['c', 'd']], c ≠ []) ∧
    (pyNormalize ("ab. cd".toList) = [] → [['a', 'b', '.'], ['c', 'd']] = []) ∧
    (pyNormalize ("ab. cd".toList) ≠ [] → ∃ ws : List (Nat × Nat),
        chainOk 0 (pyNormalize ("ab. cd".toList)).length 0 0 ws = true ∧
        rawJoin (pyNormalize ("ab. cd".toList)) 0 ws = pyNormalize ("ab. cd".toList) ∧
        [['a', 'b', '.'], ['c', 'd']] =
          (ws.map (fun w => pyStrip (pySlice (pyNormalize ("ab. cd".toList)) w.1 w.2))).filter
            (fun c => !c.isEmpty)) :=
  chunk_coverage_amended ("ab. cd".toList) 4 0 [['a', 'b', '.'], ['c', 'd']]
    (by decide) (by decide) (by decide)

/-! ## Stable descending sort: lemmas -/

theorem length_insertDescBy {α : Type} (key : α → Int) (x : α) :
    ∀ l, (insertDescBy key x l).length = l.length + 1 := by
  intro l
  induction l with
  | nil => rfl
  | cons y ys ih =>
      unfold insertDescBy
      by_cases h : key y ≤ key x
      · rw [if_pos h]; rfl
      · rw [if_neg h]; simp [ih]

theorem length_sortDescBy {α : Type} (key : α → Int) :
    ∀ l, (sortDescBy key l).length = l.length := by
  intro l
  induction l with
  | nil => rfl
  | cons x xs ih => unfold sortDescBy; rw [length_insertDescBy, ih]; rfl

theorem mem_insertDescBy {α : Type} (key : α → Int) (x a : α) :
    ∀ l, a ∈ insertDescBy key x l ↔ a = x ∨ a ∈ l := by
  intro l
  induction l with
  | nil => simp [insertDescBy]
  | cons y ys ih =>
      unfold insertDescBy
      by_cases h : key y ≤ key x
      · rw [if_pos h]; simp
      · rw [if_neg h]; simp [ih]; tauto

theorem mem_sortDescBy {α : Type} (key : α → Int) (a : α) :
    ∀ l, a ∈ sortDescBy key l ↔ a ∈ l := by
  intro l
  induction l with
  | nil => simp [sortDescBy]
  | cons x xs ih => unfold sortDescBy; rw [mem_insertDescBy]; simp [ih]

theorem pairwise_insertDescBy {α : Type} (key : α → Int) (x : α) :
    ∀ l, List.Pairwise (fun a b => key b ≤ key a) l →
    List.Pairwise (fun a b => key b ≤ key a) (insertDescBy key x l) := by
  intro l
  induction l with
  | nil => intro _; exact List.pairwise_singleton _ _
  | cons y ys ih =>
      intro hp
      rcases List.pairwise_cons.mp hp with ⟨hy, hys⟩
      unfold insertDescBy
      by_cases h : key y ≤ key x
      · rw [if_pos h]
        refine List.pairwise_cons.mpr ⟨?_, hp⟩
        intro z hz
        rcases List.mem_cons.mp hz with rfl | hz'
        · exact h
        · exact le_trans (hy z hz') h
      · rw [if_neg h]
        refine List.pairwise_cons.mpr ⟨?_, ih hys⟩
        intro z hz
        rcases (mem_insertDescBy key x z ys).mp hz with rfl | hz'
        · exact le_of_not_le h
        · exact hy z hz'

theorem sortDescBy_sorted {α : Type} (key : α → Int) :
    ∀ l, List.Pairwise (fun a b => key b ≤ key a) (sortDescBy key l) := by
  intro l
  induction l with
  | nil => exact List.Pairwise.nil
  | cons x xs ih => exact pairwise_insertDescBy key x _ ih

theorem filter_insertDescBy {α : Type} (key : α → Int) (x : α) (kk : Int) :
    ∀ l, (insertDescBy key x l).filter (fun a => decide (key a = kk)) =
      if key x = kk then x :: l.filter (fun a => decide (key a = kk))
      else l.filter (fun a => decide (key a = kk)) := by
  intro l
  induction l with
  | nil =>
      unfold insertDescBy
      by_cases hk : key x = kk <;> simp [hk]
  | cons y ys ih =>
      unfold insertDescBy
      by_cases hxy : key y ≤ key x
      · rw [if_pos hxy]
        by_cases hk : key x = kk <;> by_cases hyk : key y = kk <;>
          simp [List.filter_cons, hk, hyk]
      · rw [if_neg hxy]
        by_cases hk : key x = kk <;> by_cases hyk : key y = kk <;>
          simp [List.filter_cons, hk, hyk, ih] <;> omega

theorem filter_sortDescBy {α : Type} (key : α → Int) (kk : Int) :
    ∀ l, (sortDescBy key l).filter (fun a => decide (key a = kk)) =
      l.filter (fun a => decide (key a = kk)) := by
  intro l
  induction l with
  | nil => rfl
  | cons x xs ih =>
      unfold sortDescBy
      rw [filter_insertDescBy]
      by_cases hk : key x = kk <;> simp [List.filter_cons, hk, ih]

theorem insertDescBy_all_lt {α : Type} (key : α → Int) (x : α) :
    ∀ l, (∀ y ∈ l, key x < key y) → insertDescBy key x l = l ++ [x] := by
  intro l
  induction l with
  | nil => intro _; rfl
  | cons y ys ih =>
      intro hall
      unfold insertDescBy
      rw [if_neg (not_le.mpr (hall y (by simp)))]
      rw [ih (fun z hz => hall z (by simp [hz]))]
      rfl

theorem sortDescBy_strictAsc_reverse {α : Type} (key : α → Int) :
    ∀ l, List.Pairwise (fun a b => key a < key b) l →
    sortDescBy key l = l.reverse := by
  intro l
  induction l with
  | nil => intro _; rfl
  | cons x xs ih =>
      intro hp
      rcases List.pairwise_cons.mp hp with ⟨hx, hxs⟩
      unfold sortDescBy
      rw [ih hxs]
      rw [insertDescBy_all_lt key x _ (fun y hy => hx y (List.mem_reverse.mp hy))]
      rw [List.reverse_cons]

/-! ## Tie-breaking order of the modelled index search -/

/-- The strict order "strictly better score, or equal score and earlier
insertion index" on `(score, idx)` pairs. -/
def tieOrder (a b : Int × Int) : Prop :=
  b.1 < a.1 ∨ (a.1 = b.1 ∧ a.2 < b.2)

theorem pairwise_tie_insert (x : Int × Int) :
    ∀ l, List.Pairwise tieOrder l → (∀ y ∈ l, x.2 < y.2) →
    List.Pairwise tieOrder (insertDescBy Prod.fst x l) := by
  intro l
  induction l with
  | nil => intro _ _; exact List.pairwise_singleton _ _
  | cons y ys ih =>
      intro hp hidx
      rcases List.pairwise_cons.mp hp with ⟨hy, hys⟩
      unfold insertDescBy
      by_cases h : y.1 ≤ x.1
      · rw [if_pos h]
        refine List.pairwise_cons.mpr ⟨?_, hp⟩
        intro z hz
        rcases List.mem_cons.mp hz with rfl | hz'
        · rcases lt_or_eq_of_le h with h1 | h1
          · exact Or.inl h1
          · exact Or.inr ⟨h1.symm, hidx z (by simp)⟩
        · rcases hy z hz' with h1 | ⟨h1, h2⟩
          · rcases lt_or_eq_of_le h with h3 | h3
            · exact Or.inl (lt_trans h1 h3)
            · exact Or.inl (h3 ▸ h1)
          · rcases lt_or_eq_of_le h with h3 | h3
            · exact Or.inl (h1 ▸ h3)
            · exact Or.inr ⟨(h3.symm.trans h1).symm ▸ rfl, hidx z (by simp [hz'])⟩
      · rw [if_neg h]
        refine List.pairwise_cons.mpr ⟨?_, ih hys (fun z hz => hidx z (by simp [hz]))⟩
        intro z hz
        rcases (mem_insertDescBy Prod.fst x z ys).mp hz with rfl | hz'
        · exact Or.inl (not_le.mp h)
        · exact hy z hz'

theorem sortDescBy_pairwise_tie :
    ∀ l : List (Int × Int), List.Pairwise (fun a b => a.2 < b.2) l →
    List.Pairwise tieOrder (sortDescBy Prod.fst l) := by
  intro l
  induction l with
  | nil => intro _; exact List.Pairwise.nil
  | cons x xs ih =>
      intro hp
      rcases List.pairwise_cons.mp hp with ⟨hx, hxs⟩
      unfold sortDescBy
      exact pairwise_tie_insert x _ (ih hxs)
        (fun z hz => hx z ((mem_sortDescBy Prod.fst z xs).mp hz))

/-! ## Scored-vector list lemmas -/

theorem scoredFrom_length (q : List Int) :
    ∀ (i : Int) (vs : List (List Int)), (scoredFrom q i vs).length = vs.length := by
  intro i vs
  induction vs generalizing i with
  | nil => rfl
  | cons v vs ih => unfold scoredFrom; simp [ih]

theorem scoredFrom_idx_bounds (q : List Int) :
    ∀ (vs : List (List Int)) (i : Int) (p : Int × Int), p ∈ scoredFrom q i vs →
    i ≤ p.2 ∧ p.2 < i + vs.length := by
  intro vs
  induction vs with
  | nil => intro i p h; cases h
  | cons v vs ih =>
      intro i p h
      unfold scoredFrom at h
      rcases List.mem_cons.mp h with rfl | h'
      · simp only [List.length_cons]
        constructor
        · exact le_refl _
        · push_cast
          omega
      · have := ih (i + 1) p h'
        simp only [List.length_cons]
        push_cast at this ⊢
        omega

theorem scoredFrom_pairwise_idx (q : List Int) :
    ∀ (vs : List (List Int)) (i : Int),
    List.Pairwise (fun a b : Int × Int => a.2 < b.2) (scoredFrom q i vs) := by
  intro vs
  induction vs with
  | nil => intro i; exact List.Pairwise.nil
  | cons v vs ih =>
      intro i
      unfold scoredFrom
      refine List.pairwise_cons.mpr ⟨?_, ih (i + 1)⟩
      intro z hz
      have := (scoredFrom_idx_bounds q vs (i + 1) z hz).1
      omega

theorem kb_searchPairs_eq (q : List Int) (k : Nat) {stored : List (List Int)}
    {metas : List Meta} (hlen : metas.length = stored.length) :
    kb_searchPairs stored metas q k
      = (sortDescBy Prod.fst (scoredFrom q 0 stored)).take k := by
  unfold kb_searchPairs faissSearch
  rw [List.filter_append]
  have hpad : ∀ m : Nat, (List.replicate m ((0 : Int), (-1 : Int))).filter
      (fun p => decide (0 ≤ p.2) && decide (p.2 < (metas.length : Int))) = [] := by
    intro m
    induction m with
    | zero => rfl
    | succ m ih => rw [List.replicate_succ, List.filter_cons]; simpa using ih
  rw [hpad, List.append_nil]
  apply List.filter_eq_self.mpr
  intro p hp
  have hmem : p ∈ sortDescBy Prod.fst (scoredFrom q 0 stored) :=
    (List.take_sublist k _).subset hp
  have hmem2 := (mem_sortDescBy Prod.fst p _).mp hmem
  have hb := scoredFrom_idx_bounds q stored 0 p hmem2
  simp only [Bool.and_eq_true, decide_eq_true_eq]
  rw [hlen]
  push_cast at hb ⊢
  omega

/-- Claim C1: for every loaded knowledge base satisfying the bundle
invariant (as many metadata records as stored vectors), every query
embedding and every k ≥ 1, search returns exactly min(k, corpus size)
Hits — at most k, and exactly the corpus size when that is smaller —
sorted by score non-increasing, and the kept (score, index) pairs are
strictly ordered by score descending with equal scores ordered by
original insertion (vector) index. -/
theorem search_ordering_topk :
    ∀ (stored : List (List Int)) (metas : List Meta) (q : List Int) (k : Nat),
    1 ≤ k → metas.length = stored.length →
    (kb_search stored metas q k).length = min k stored.length ∧
    List.Pairwise (fun a b : Hit => b.score ≤ a.score) (kb_search stored metas q k) ∧
    List.Pairwise tieOrder (kb_searchPairs stored metas q k) := by
  intro stored metas q k hk hlen
  have he := kb_searchPairs_eq q k hlen
  refine ⟨?_, ?_, ?_⟩
  · unfold kb_search
    rw [List.length_map, he, List.length_take, length_sortDescBy, scoredFrom_length]
  · unfold kb_search
    rw [List.pairwise_map]
    have hsorted : List.Pairwise (fun a b : Int × Int => b.1 ≤ a.1)
        (kb_searchPairs stored metas q k) := by
      rw [he]
      exact List.Pairwise.sublist (List.take_sublist _ _) (sortDescBy_sorted Prod.fst _)
    exact hsorted.imp (fun h => h)
  · rw [he]
    exact List.Pairwise.sublist (List.take_sublist _ _)
      (sortDescBy_pairwise_tie _ (scoredFrom_pairwise_idx q stored 0))

/-- Witness for C1 at a concrete two-vector index with k = 1. -/
theorem search_ordering_topk_witness :
    (kb_search [[2], [1]] [⟨"t1", "a", 1, "en"⟩, ⟨"t2", "b", 2, "en"⟩] [1] 1).length
        = min 1 ([[2], [1]] : List (List Int)).length ∧
      List.Pairwise (fun a b : Hit => b.score ≤ a.score)
        (kb_search [[2], [1]] [⟨"t1", "a", 1, "en"⟩, ⟨"t2", "b", 2, "en"⟩] [1] 1) ∧
      List.Pairwise tieOrder
        (kb_searchPairs [[2], [1]] [⟨"t1", "a", 1, "en"⟩, ⟨"t2", "b", 2, "en"⟩] [1] 1) :=
  search_ordering_topk [[2], [1]] [⟨"t1", "a", 1, "en"⟩, ⟨"t2", "b", 2, "en"⟩] [1] 1
    (by decide) (by decide)

/-! ## Rerank lemmas -/

theorem zip_pairwise_fst {β : Type} :
    ∀ (ss : List Int) (hs : List β), ss.Pairwise (fun a b => a < b) →
    (ss.zip hs).Pairwise (fun a b => a.1 < b.1) := by
  intro ss
  induction ss with
  | nil => intro hs _; simp
  | cons s ss ih =>
      intro hs hp
      cases hs with
      | nil => simp
      | cons h hs =>
          rcases List.pairwise_cons.mp hp with ⟨hhead, htail⟩
          refine List.pairwise_cons.mpr ⟨?_, ih hs htail⟩
          intro z hz
          exact hhead z.1 (List.of_mem_zip hz).1

theorem map_snd_zip_eq {β γ : Type} (f : β → γ) :
    ∀ (ss : List Int) (hs : List β), ss.length = hs.length →
    (ss.zip hs).map (fun p => f p.2) = hs.map f := by
  intro ss
  induction ss with
  | nil =>
      intro hs h
      cases hs with
      | nil => rfl
      | cons b bs => cases h
  | cons s ss ih =>
      intro hs h
      cases hs with
      | nil => cases h
      | cons b bs =>
          simp only [List.zip_cons_cons, List.map_cons]
          rw [ih bs (by simpa using h)]

theorem range_map_ofNat_pairwise (n : Nat) :
    ((List.range n).map (Int.ofNat)).Pairwise (fun a b => a < b) := by
  rw [List.pairwise_map]
  exact (List.pairwise_lt_range n).imp (fun h => Int.ofNat_lt.mpr h)

theorem rerank_eq (cross : String → String → Int) (q : String)
    (hits : List Hit) (top_m : Nat) :
    rerank cross q hits top_m
      = ((sortDescBy Prod.fst ((hits.map (fun h => cross q h.text)).zip hits)).take
          top_m).map (fun p => { p.2 with score := p.1 }) := by
  simp only [rerank]
  rw [List.map_map]
  rfl

/-- Claim C5, corrected (counterexample): a re-ranker that returns
score = i for the item at position i makes rerank REVERSE the list (it
sorts descending), so the output (source, page, text) sequence is not
the input order.  Here hits [(a,1,t0), (b,2,t1)] with scores 0 and 1
come back as [(b,2,t1), (a,1,t0)]. -/
theorem rerank_monotone_counterexample :
    (rerank (fun _ t => if t = "t0" then 0 else 1) "q"
        [⟨0, "t0", "a", 1, "en"⟩, ⟨0, "t1", "b", 2, "en"⟩] 2).map
        (fun h => (h.source, h.page, h.text))
      = [("b", 2, "t1"), ("a", 1, "t0")] ∧
    [("b", (2 : Nat), "t1"), ("a", 1, "t0")] ≠ [("a", 1, "t0"), ("b", 2, "t1")] := by
  constructor
  · rfl
  · decide

/-- Claim C5 (amended): rerank truncates to top_m (of the hit count),
sorts descending by the new score keeping ties in their original
relative order (stable sort: for each score value the kept sub-sequence
is unchanged), and with a re-ranker returning score = i for the item at
position i and top_m = length, the output (source, page, text)
sequence is the REVERSE of the input order. -/
theorem rerank_amended :
    ∀ (cross : String → String → Int) (q : String) (hits : List Hit) (top_m : Nat),
    (rerank cross q hits top_m).length = min top_m hits.length ∧
    List.Pairwise (fun a b : Hit => b.score ≤ a.score) (rerank cross q hits top_m) ∧
    (∀ kk : Int,
      (sortDescBy Prod.fst ((hits.map (fun h => cross q h.text)).zip hits)).filter
          (fun p => decide (p.1 = kk))
        = ((hits.map (fun h => cross q h.text)).zip hits).filter
          (fun p => decide (p.1 = kk))) ∧
    ((hits.map (fun h => cross q h.text)) = (List.range hits.length).map Int.ofNat →
      (rerank cross q hits hits.length).map (fun h => (h.source, h.page, h.text))
        = (hits.map (fun h => (h.source, h.page, h.text))).reverse) := by
  intro cross q hits top_m
  refine ⟨?_, ?_, ?_, ?_⟩
  · rw [rerank_eq, List.length_map, List.length_take, length_sortDescBy,
      List.length_zip, List.length_map, min_self]
  · rw [rerank_eq, List.pairwise_map]
    have hsorted := List.Pairwise.sublist (List.take_sublist top_m _)
      (sortDescBy_sorted Prod.fst ((hits.map (fun h => cross q h.text)).zip hits))
    exact hsorted.imp (fun h => h)
  · intro kk
    exact filter_sortDescBy Prod.fst kk _
  · intro hsc
    rw [rerank_eq, hsc]
    rw [sortDescBy_strictAsc_reverse Prod.fst _
      (zip_pairwise_fst _ hits (range_map_ofNat_pairwise hits.length))]
    have hlen : (((List.range hits.length).map Int.ofNat).zip hits).length = hits.length := by
      rw [List.length_zip, List.length_map, List.length_range, min_self]
    rw [List.take_of_length_le (by rw [List.length_reverse, hlen])]
    rw [List.map_map, List.map_reverse]
    have := map_snd_zip_eq (fun h : Hit => (h.source, h.page, h.text))
      ((List.range hits.length).map Int.ofNat) hits
      (by rw [List.length_map, List.length_range])
    rw [show ((fun h : Hit => (h.source, h.page, h.text)) ∘
        (fun p : Int × Hit => { p.2 with score := p.1 }))
        = (fun p : Int × Hit => (p.2.source, p.2.page, p.2.text)) from rfl]
    rw [this]

/-- Witness for the amended C5 theorem at a concrete two-element input,
with the monotone (score = position) re-ranker, showing the reversal. -/
theorem rerank_amended_witness :
    (rerank (fun _ t => if t = "t0" then 0 else 1) "q"
        [⟨0, "t0", "a", 1, "en"⟩, ⟨0, "t1", "b", 2, "en"⟩] 2).map
        (fun h => (h.source, h.page, h.text))
      = (([⟨0, "t0", "a", 1, "en"⟩, ⟨0, "t1", "b", 2, "en"⟩] : List Hit).map
          (fun h => (h.source, h.page, h.text))).reverse :=
  (rerank_amended (fun _ t => if t = "t0" then 0 else 1) "q"
      [⟨0, "t0", "a", 1, "en"⟩, ⟨0, "t1", "b", 2, "en"⟩] 2).2.2.2 (by decide)

/-! ## Staleness check -/

/-- Claim C2, corrected (counterexample): the claim's count clause ("the
count of current PDF paths differs from the count of the stored
manifest's PDF entries") disagrees with the code when the stored
manifest lists the same path twice: the code compares against the size
of the dict keyed by path, which collapses duplicates.  Here the stored
manifest has two identical entries for one current PDF: the code sees
no staleness (returns false) while the claim's disjunction is true. -/
theorem needs_rebuild_counterexample :
    needsRebuild ⟨"m", 1, 0⟩
      ⟨true, true, true, true,
        some ⟨some 0, some "m", some 1, some 0,
          [⟨"/a.pdf", some 1, some 1⟩, ⟨"/a.pdf", some 1, some 1⟩]⟩, [], [], ⟨"", 0, 0⟩⟩
      [⟨"/a.pdf", 1, 1, true⟩] = false ∧
    needsRebuildClaimed ⟨"m", 1, 0⟩
      ⟨true, true, true, true,
        some ⟨some 0, some "m", some 1, some 0,
          [⟨"/a.pdf", some 1, some 1⟩, ⟨"/a.pdf", some 1, some 1⟩]⟩, [], [], ⟨"", 0, 0⟩⟩
      [⟨"/a.pdf", 1, 1, true⟩] = true := by
  constructor
  · rfl
  · rfl

/-- Claim C2 (amended): needs_rebuild returns true if and only if a
bundle artifact is absent, or the stored manifest is unparsable, or the
stored embedding model / chunk size / overlap differ from the
configured values, or the count of current PDF paths differs from the
count of DISTINCT paths among the stored manifest's PDF entries (the
size of the path-keyed dict), or some current PDF's resolved path is
absent from the stored manifest or differs from the (last) stored entry
with that path in size or mtime_ns. -/
theorem needs_rebuild_iff_amended :
    ∀ (idx : IndexerCfg) (disk : DiskState) (pdfs : List PdfStat),
    needsRebuild idx disk pdfs = needsRebuildAmendedSpec idx disk pdfs := by
  intro idx disk pdfs
  unfold needsRebuild needsRebuildAmendedSpec
  cases hm : disk.manifest with
  | none =>
      cases hflags : (disk.hasFaiss && disk.hasMeta && disk.hasConfig && disk.hasManifest) <;>
        simp
  | some m =>
      cases hflags : (disk.hasFaiss && disk.hasMeta && disk.hasConfig && disk.hasManifest)
      · simp
      · simp only [Bool.not_true, Bool.false_or, Bool.false_eq_true, if_false]
        by_cases hA : (m.embedding_model ≠ some idx.embed_model
            ∨ m.chunk_size ≠ some idx.chunk_size ∨ m.overlap ≠ some idx.overlap)
        · rw [if_pos hA]
          rcases hA with h | h | h <;> simp [h]
        · rw [if_neg hA]
          push_neg at hA
          obtain ⟨ha1, ha2, ha3⟩ := hA
          rw [decide_eq_false (by simpa using ha1), decide_eq_false (by simpa using ha2),
            decide_eq_false (by simpa using ha3)]
          simp only [Bool.false_or]
          cases hany : pdfs.any (fun p =>
              match storedLookup m.pdfs p.path with
              | none => true
              | some e => e.size ≠ some p.size || e.mtime_ns ≠ some p.mtime_ns)
          · simp only [Bool.false_eq_true, if_false, Bool.or_false]
            by_cases hc : distinctPathCount m.pdfs ≠ pdfs.length
            · rw [if_pos hc, decide_eq_true hc]
            · rw [if_neg hc, decide_eq_false hc]
          · simp

/-! ## Build manifest freshness and ensure_index idempotence -/

theorem filter_path_eq_singleton :
    ∀ (pdfs : List PdfStat) (p : PdfStat), (pdfs.map PdfStat.path).Nodup → p ∈ pdfs →
    pdfs.filter (fun x => x.path == p.path) = [p] := by
  intro pdfs
  induction pdfs with
  | nil => intro p _ hp; cases hp
  | cons x rest ih =>
      intro p hnd hp
      rw [List.map_cons, List.nodup_cons] at hnd
      obtain ⟨hx, hnd'⟩ := hnd
      rcases List.mem_cons.mp hp with rfl | hp'
      · rw [List.filter_cons, if_pos (by simp)]
        have hrest : rest.filter (fun x => x.path == p.path) = [] := by
          apply List.filter_eq_nil.mpr
          intro y hy
          simp only [beq_iff_eq]
          intro heq
          exact hx (heq ▸ List.mem_map_of_mem PdfStat.path hy)
        rw [hrest]
      · rw [List.filter_cons, if_neg, ih p hnd' hp']
        simp only [beq_iff_eq]
        intro heq
        exact hx (heq ▸ List.mem_map_of_mem PdfStat.path hp')

theorem storedLookup_build {pdfs : List PdfStat} {p : PdfStat}
    (hnd : (pdfs.map PdfStat.path).Nodup) (hp : p ∈ pdfs) :
    storedLookup (pdfs.map (fun x => (⟨x.path, some x.size, some x.mtime_ns⟩ : ManifestEntry)))
      p.path = some ⟨p.path, some p.size, some p.mtime_ns⟩ := by
  unfold storedLookup
  rw [List.filter_map]
  rw [show ((fun e : ManifestEntry => e.path == p.path) ∘
      (fun x : PdfStat => (⟨x.path, some x.size, some x.mtime_ns⟩ : ManifestEntry)))
      = (fun x : PdfStat => x.path == p.path) from rfl]
  rw [filter_path_eq_singleton pdfs p hnd hp]
  rfl

theorem needsRebuild_after_build :
    ∀ (idx : IndexerCfg) (now : Nat) (pdfs : List PdfStat) (disk : DiskState),
    disk.hasFaiss = true → disk.hasMeta = true → disk.hasConfig = true →
    disk.hasManifest = true →
    disk.manifest = some (buildManifest idx now pdfs) →
    (pdfs.map PdfStat.path).Nodup →
    needsRebuild idx disk pdfs = false := by
  intro idx now pdfs disk h1 h2 h3 h4 hm hnd
  unfold needsRebuild
  rw [h1, h2, h3, h4, hm]
  simp only [Bool.and_self, Bool.not_true, Bool.false_eq_true, if_false]
  rw [if_neg (by simp [buildManifest])]
  rw [if_neg ?hany]
  case hany =>
    simp only [ne_eq]
    intro hany
    rcases List.any_eq_true.mp hany with ⟨p, hp, hfp⟩
    rw [show (buildManifest idx now pdfs).pdfs
        = pdfs.map (fun x => (⟨x.path, some x.size, some x.mtime_ns⟩ : ManifestEntry))
      from rfl] at hfp
    rw [storedLookup_build hnd hp] at hfp
    simp at hfp
  rw [if_neg ?hcount]
  case hcount =>
    simp only [ne_eq, Decidable.not_not]
    show distinctPathCount (buildManifest idx now pdfs).pdfs = pdfs.length
    rw [show (buildManifest idx now pdfs).pdfs
        = pdfs.map (fun x => (⟨x.path, some x.size, some x.mtime_ns⟩ : ManifestEntry))
      from rfl]
    unfold distinctPathCount
    rw [List.map_map]
    rw [show ((fun e : ManifestEntry => e.path) ∘
        (fun x : PdfStat => (⟨x.path, some x.size, some x.mtime_ns⟩ : ManifestEntry)))
        = PdfStat.path from rfl]
    rw [List.dedup_eq_self.mpr hnd, List.length_map]

/-- Claim C3, corrected (counterexample): two unchanged directories on
which every ensure_index call rebuilds, refuting the claim that the
second consecutive call performs no rebuild.  First, two glob entries
that resolve to the same absolute path (a symlink alias): the manifest
written by the first build lists the duplicate path twice, the
path-keyed dict then has one entry against two current files, and the
second call rebuilds again.  Second, a regular PDF next to a
subdirectory named like a PDF: the is_file filter keeps the directory
out of the manifest while the staleness check still iterates it, so its
path is never found and the second call rebuilds again.  In both
scenarios both calls succeed and both report a rebuild. -/
theorem ensure_index_idempotent_counterexample :
    (match ensureIndex c3cfg c3embed c3extract 0 c3mem0 c3disk0 c3pdfsDup with
     | .ok r =>
        (match ensureIndex c3cfg c3embed c3extract 1 r.1 r.2.1 c3pdfsDup with
         | .ok r2 => r.2.2 && r2.2.2
         | .error _ => false)
     | .error _ => false) = true ∧
    (match ensureIndex c3cfg c3embed c3extract 0 c3mem0 c3disk0 c3pdfsDir with
     | .ok r =>
        (match ensureIndex c3cfg c3embed c3extract 1 r.1 r.2.1 c3pdfsDir with
         | .ok r2 => r.2.2 && r2.2.2
         | .error _ => false)
     | .error _ => false) = true := ⟨by rfl, by rfl⟩

/-- Claim C3 (amended): provided every glob entry of the documents
directory is a regular file and no two of them resolve to the same
absolute path, two consecutive ensure_index calls over an unchanged
documents directory and configuration rebuild at most once: whatever
the first successful call did, the second call performs no rebuild (it
reports false and leaves the disk bundle unchanged), because after a
successful build needs_rebuild on the same PDFs and configuration is
false. -/
theorem ensure_index_idempotent_amended :
    ∀ (idx : IndexerCfg) (embed : String → List Int)
      (extractOf : PdfStat → List DocChunk) (now now2 : Nat) (mem : KBMem)
      (disk : DiskState) (pdfs : List PdfStat) (mem1 : KBMem) (disk1 : DiskState)
      (r1 : Bool),
    (pdfs.map PdfStat.path).Nodup →
    (∀ p ∈ pdfs, p.isFile = true) →
    ensureIndex idx embed extractOf now mem disk pdfs = .ok (mem1, disk1, r1) →
    ensureIndex idx embed extractOf now2 mem1 disk1 pdfs
      = .ok (loadIndexStep mem1 disk1, disk1, false) := by
  intro idx embed extractOf now now2 mem disk pdfs mem1 disk1 r1 hnd hfile h
  unfold ensureIndex at h ⊢
  by_cases hemp : pdfs.isEmpty
  · rw [if_pos hemp] at h
    exact Except.noConfusion h
  · rw [if_neg hemp] at h
    rw [if_neg hemp]
    by_cases hnr : needsRebuild idx disk pdfs = true
    · rw [if_pos hnr] at h
      cases hb : build idx embed extractOf now pdfs with
      | error e => rw [hb] at h; exact Except.noConfusion h
      | ok b =>
          rw [hb] at h
          have hfilt : pdfs.filter (fun p => p.isFile) = pdfs :=
            List.filter_eq_self.mpr hfile
          have hman : b.manifest = buildManifest idx now pdfs := by
            simp only [build] at hb
            rw [hfilt] at hb
            rw [if_neg hemp] at hb
            by_cases hch : ((pdfs.map extractOf).flatten).isEmpty
            · rw [if_pos hch] at hb
              exact Except.noConfusion hb
            · rw [if_neg hch] at hb
              cases hb
              rfl
          cases h
          have hnr2 : needsRebuild idx (writeBundle b) pdfs = false :=
            needsRebuild_after_build idx now pdfs (writeBundle b) rfl rfl rfl rfl
              (by simp [writeBundle, hman]) hnd
          rw [if_neg (by rw [hnr2]; exact Bool.false_ne_true)]
    · rw [if_neg hnr] at h
      cases h
      rw [if_neg hnr]

/-- Witness for the amended C3 theorem: a single-PDF corpus, first call
builds from an empty index directory, second call reports no rebuild. -/
theorem ensure_index_idempotent_amended_witness :
    (c3pdfs1.map PdfStat.path).Nodup ∧ (∀ p ∈ c3pdfs1, p.isFile = true) ∧
    ensureIndex c3cfg c3embed c3extract 7 c3mem1 c3disk1 c3pdfs1
      = .ok (loadIndexStep c3mem1 c3disk1, c3disk1, false) :=
  ⟨by decide, by decide,
    ensure_index_idempotent_amended c3cfg c3embed c3extract 0 7 c3mem0 c3disk0
      c3pdfs1 c3mem1 c3disk1 true (by decide) (by decide) (by rfl)⟩

/-! ## Frame property of _load_index, config-model use, answer, build -/

/-- Claim C9: once the knowledge base is loaded (in-memory index and
model both set), every ensure_index call that returns leaves the
in-memory state unchanged — even when it rebuilt the on-disk bundle —
because _load_index returns early; and only close() followed by a
reload picks up a new bundle (after close, the load step populates the
memory from the disk bundle). -/
theorem ensure_index_frame :
    ∀ (idx : IndexerCfg) (embed : String → List Int)
      (extractOf : PdfStat → List DocChunk) (now : Nat) (mem : KBMem)
      (disk disk2 : DiskState) (pdfs : List PdfStat) (mem1 : KBMem)
      (disk1 : DiskState) (r1 : Bool),
    mem.index.isSome = true → mem.model.isSome = true →
    (ensureIndex idx embed extractOf now mem disk pdfs = .ok (mem1, disk1, r1) →
      mem1 = mem) ∧
    loadIndexStep (kbClose mem) disk2
      = ⟨some disk2.vectors, some disk2.config.embedding_model, disk2.metas,
          some disk2.config⟩ := by
  intro idx embed extractOf now mem disk disk2 pdfs mem1 disk1 r1 h1 h2
  have hload : ∀ d : DiskState, loadIndexStep mem d = mem := by
    intro d
    unfold loadIndexStep
    rw [h1, h2]
    rfl
  constructor
  · intro h
    unfold ensureIndex at h
    by_cases hemp : pdfs.isEmpty
    · rw [if_pos hemp] at h
      exact Except.noConfusion h
    · rw [if_neg hemp] at h
      by_cases hnr : needsRebuild idx disk pdfs = true
      · rw [if_pos hnr] at h
        cases hb : build idx embed extractOf now pdfs with
        | error e => rw [hb] at h; exact Except.noConfusion h
        | ok b => rw [hb] at h; cases h; exact hload _
      · rw [if_neg hnr] at h
        cases h
        exact hload _
  · rfl

/-- Witness for C9: a loaded memory state survives an ensure_index call
that rebuilt the bundle, and close-then-reload picks the bundle up. -/
theorem ensure_index_frame_witness :
    loadIndexStep ⟨some [[1]], some "M", [], some ⟨"M", 1, 0⟩⟩ c3disk1
        = ⟨some [[1]], some "M", [], some ⟨"M", 1, 0⟩⟩ ∧
    loadIndexStep (kbClose ⟨some [[1]], some "M", [], some ⟨"M", 1, 0⟩⟩) c3disk1
      = ⟨some c3disk1.vectors, some c3disk1.config.embedding_model, c3disk1.metas,
          some c3disk1.config⟩ :=
  ⟨(ensure_index_frame c3cfg c3embed c3extract 0
      ⟨some [[1]], some "M", [], some ⟨"M", 1, 0⟩⟩ c3disk0 c3disk1 c3pdfs1
      (loadIndexStep ⟨some [[1]], some "M", [], some ⟨"M", 1, 0⟩⟩ c3disk1) c3disk1 true
      (by decide) (by decide)).1 (by rfl),
    (ensure_index_frame c3cfg c3embed c3extract 0
      ⟨some [[1]], some "M", [], some ⟨"M", 1, 0⟩⟩ c3disk0 c3disk1 c3pdfs1
      (loadIndexStep ⟨some [[1]], some "M", [], some ⟨"M", 1, 0⟩⟩ c3disk1) c3disk1 true
      (by decide) (by decide)).2⟩

/-- Claim C7, corrected (counterexample): a knowledge base configured
with embedding model "A" whose loaded bundle config records model "B"
serves search successfully — no exception is raised on the mismatch;
the code has no check comparing the configured model with the loaded
config's model. -/
theorem model_mismatch_counterexample :
    (⟨"A", 1, 0⟩ : IndexerCfg).embed_model = "A" ∧
    c7mem.cfg = some ⟨"B", 1, 0⟩ ∧
    "A" ≠ "B" ∧
    kb_search_full (fun _ _ => [1]) c7mem "q" 1 = .ok [⟨1, "t", "a.pdf", 1, "en"⟩] :=
  ⟨rfl, rfl, by decide, by rfl⟩

/-- Claim C7 (amended): at query time search encodes the query with the
embedding model identifier the in-memory model was constructed from,
which the load step takes from the loaded bundle's config; whenever the
index and model are set, search succeeds with that model regardless of
the configured embedding model — a configured-versus-loaded-config
mismatch raises no exception (only the manifest check in ensure_index
reacts to a configured-model change, by rebuilding). -/
theorem search_uses_config_model :
    ∀ (embed : String → String → List Int) (mem mem2 : KBMem) (q : String) (k : Nat)
      (stored : List (List Int)) (mid : String) (disk : DiskState),
    mem.index = some stored → mem.model = some mid →
    kb_search_full embed mem q k = .ok (kb_search stored mem.metas (embed mid q) k) ∧
    ((mem2.index.isSome && mem2.model.isSome) = false →
      (loadIndexStep mem2 disk).model = some disk.config.embedding_model ∧
      (loadIndexStep mem2 disk).cfg = some disk.config) := by
  intro embed mem mem2 q k stored mid disk h1 h2
  constructor
  · unfold kb_search_full
    rw [h1, h2]
  · intro hun
    unfold loadIndexStep
    rw [hun]
    simp

/-- Witness for the amended C7 theorem. -/
theorem search_uses_config_model_witness :
    kb_search_full (fun _ _ => [1]) c7mem "q" 1
        = .ok (kb_search [[1]] c7mem.metas ((fun _ _ => [(1 : Int)]) "B" "q") 1) ∧
    (((⟨none, none, [], none⟩ : KBMem).index.isSome &&
        (⟨none, none, [], none⟩ : KBMem).model.isSome) = false →
      (loadIndexStep ⟨none, none, [], none⟩ c3disk1).model
          = some c3disk1.config.embedding_model ∧
      (loadIndexStep ⟨none, none, [], none⟩ c3disk1).cfg = some c3disk1.config) :=
  search_uses_config_model (fun _ _ => [1]) c7mem ⟨none, none, [], none⟩ "q" 1 [[1]] "B"
    c3disk1 (by rfl) (by rfl)

/-- Claim C6: the Hits returned by answer are exactly the Hits passed
to the prompt builder for that same call (the returned pair is built
from one hit list, used both to assemble the prompt given to the
generation client and as the citation set); when use_rerank is true and
the initial search result is non-empty those hits are
rerank(query, hits, min(final_m, len(hits))), otherwise they are the
search result unchanged. -/
theorem answer_citation_consistency :
    ∀ (embed : String → String → List Int) (cross : String → String → Int)
      (detect : String → Option String) (gen : String → String) (mem : KBMem)
      (question : String) (k : Nat) (use_rerank : Bool) (final_m : Nat)
      (answer_lang : Option String) (hits0 : List Hit),
    kb_search_full embed mem question k = .ok hits0 →
    answer embed cross detect gen mem question k use_rerank final_m answer_lang
      = .ok (gen (build_prompt detect question
          (if use_rerank && !hits0.isEmpty then
            rerank cross question hits0 (min final_m hits0.length)
          else hits0) answer_lang),
        if use_rerank && !hits0.isEmpty then
          rerank cross question hits0 (min final_m hits0.length)
        else hits0) := by
  intro embed cross detect gen mem question k use_rerank final_m answer_lang hits0 h
  unfold answer
  rw [h]

/-- Witness for C6 on a one-vector loaded knowledge base without
reranking. -/
theorem answer_citation_consistency_witness :
    answer (fun _ _ => [1]) (fun _ _ => 0) (fun _ => none) (fun _ => "ans")
        ⟨some [[1]], some "M", [⟨"t", "a.pdf", 1, "en"⟩], some ⟨"M", 1, 0⟩⟩
        "q" 1 false 1 (some "en")
      = .ok ((fun _ : String => "ans") (build_prompt (fun _ => none) "q"
          (if false && !([⟨1, "t", "a.pdf", 1, "en"⟩] : List Hit).isEmpty then
            rerank (fun _ _ => 0) "q" [⟨1, "t", "a.pdf", 1, "en"⟩]
              (min 1 ([⟨1, "t", "a.pdf", 1, "en"⟩] : List Hit).length)
          else [⟨1, "t", "a.pdf", 1, "en"⟩]) (some "en")),
        if false && !([⟨1, "t", "a.pdf", 1, "en"⟩] : List Hit).isEmpty then
          rerank (fun _ _ => 0) "q" [⟨1, "t", "a.pdf", 1, "en"⟩]
            (min 1 ([⟨1, "t", "a.pdf", 1, "en"⟩] : List Hit).length)
        else [⟨1, "t", "a.pdf", 1, "en"⟩]) :=
  answer_citation_consistency (fun _ _ => [1]) (fun _ _ => 0) (fun _ => none)
    (fun _ => "ans") ⟨some [[1]], some "M", [⟨"t", "a.pdf", 1, "en"⟩], some ⟨"M", 1, 0⟩⟩
    "q" 1 false 1 (some "en") [⟨1, "t", "a.pdf", 1, "en"⟩] (by rfl)

/-- Claim C8: every successful build writes as many metadata records as
vectors, and for every position i the i-th record is the metadata of
the chunk whose embedding is the i-th vector (records and vectors are
parallel images of the extracted chunk list). -/
theorem build_meta_vector_invariant :
    ∀ (cfg : IndexerCfg) (embed : String → List Int)
      (extractOf : PdfStat → List DocChunk) (now : Nat)
      (pdf_files : List PdfStat) (b : BuiltBundle),
    build cfg embed extractOf now pdf_files = .ok b →
    b.records.length = b.vectors.length ∧
    ∀ i : Nat,
      b.records.get? i
        = ((((pdf_files.filter (fun p => p.isFile)).map extractOf).flatten).get? i).map
            chunkToMeta ∧
      b.vectors.get? i
        = ((((pdf_files.filter (fun p => p.isFile)).map extractOf).flatten).get? i).map
            (fun c => embed c.text) := by
  intro cfg embed extractOf now pdf_files b h
  simp only [build] at h
  by_cases hemp : (pdf_files.filter (fun p => p.isFile)).isEmpty
  · rw [if_pos hemp] at h
    exact Except.noConfusion h
  · rw [if_neg hemp] at h
    by_cases hch : (((pdf_files.filter (fun p => p.isFile)).map extractOf).flatten).isEmpty
    · rw [if_pos hch] at h
      exact Except.noConfusion h
    · rw [if_neg hch] at h
      cases h
      refine ⟨by simp only [List.length_map], ?_⟩
      intro i
      constructor
      · exact List.get?_map chunkToMeta _ i
      · exact List.get?_map (fun c : DocChunk => embed c.text) _ i

/-- Witness for C8 on a one-PDF, one-chunk build. -/
theorem build_meta_vector_invariant_witness :
    (⟨[[1]], [⟨"t", "a.pdf", 1, "en"⟩], ⟨"m", 1, 0⟩,
        buildManifest ⟨"m", 1, 0⟩ 0 [⟨"/a.pdf", 1, 1, true⟩]⟩ : BuiltBundle).records.length
      = (⟨[[1]], [⟨"t", "a.pdf", 1, "en"⟩], ⟨"m", 1, 0⟩,
          buildManifest ⟨"m", 1, 0⟩ 0 [⟨"/a.pdf", 1, 1, true⟩]⟩ : BuiltBundle).vectors.length ∧
    ∀ i : Nat,
      (⟨[[1]], [⟨"t", "a.pdf", 1, "en"⟩], ⟨"m", 1, 0⟩,
          buildManifest ⟨"m", 1, 0⟩ 0 [⟨"/a.pdf", 1, 1, true⟩]⟩ : BuiltBundle).records.get? i
        = (((([⟨"/a.pdf", 1, 1, true⟩].filter (fun p => p.isFile)).map (fun _ : PdfStat =>
            [(⟨"t", "a.pdf", 1, "en"⟩ : DocChunk)])).flatten).get? i).map chunkToMeta ∧
      (⟨[[1]], [⟨"t", "a.pdf", 1, "en"⟩], ⟨"m", 1, 0⟩,
          buildManifest ⟨"m", 1, 0⟩ 0 [⟨"/a.pdf", 1, 1, true⟩]⟩ : BuiltBundle).vectors.get? i
        = (((([⟨"/a.pdf", 1, 1, true⟩].filter (fun p => p.isFile)).map (fun _ : PdfStat =>
            [(⟨"t", "a.pdf", 1, "en"⟩ : DocChunk)])).flatten).get? i).map
            (fun c => (fun _ : String => [(1 : Int)]) c.text) :=
  build_meta_vector_invariant ⟨"m", 1, 0⟩ (fun _ => [1])
    (fun _ => [⟨"t", "a.pdf", 1, "en"⟩]) 0 [⟨"/a.pdf", 1, 1, true⟩]
    ⟨[[1]], [⟨"t", "a.pdf", 1, "en"⟩], ⟨"m", 1, 0⟩,
      buildManifest ⟨"m", 1, 0⟩ 0 [⟨"/a.pdf", 1, 1, true⟩]⟩ (by rfl)
